import Mathlib

/-!
Verification development for the `ollama-docs` loader (`src/ollama.ts`).

The loader discovers Markdown files in a GitHub repository directory,
fetches each file's metadata and raw text, rewrites relative Markdown
links to `/docs/`-prefixed routes, validates the merged record and
stores it keyed by the metadata `url`.

The embedding below translates the TypeScript source into Lean:
strings are modelled by `List Char` where character-level scanning
matters and by `String` elsewhere; JavaScript `undefined`-able values
become `Option`; thrown exceptions become `Except`/`Option` results;
the network and the platform URL parser are passed in explicitly as an
environment of functions.
-/

namespace OllamaDocs

/-! ## Generic string helpers (JS `endsWith` / `includes` semantics) -/

/-- Boolean list-prefix test (JS `String.prototype.startsWith` on char lists). -/
def isPrefixList (p l : List Char) : Bool :=
  match p, l with
  | [], _ => true
  | _ :: _, [] => false
  | a :: ps, b :: ls => a == b && isPrefixList ps ls

/-- Boolean substring test (JS `String.prototype.includes` on char lists). -/
def hasSubstrList (n : List Char) : List Char → Bool
  | [] => n.isEmpty
  | c :: rest => isPrefixList n (c :: rest) || hasSubstrList n rest

/-- JS `s.endsWith(suffix)`. -/
def jsEndsWith (s suffix : String) : Bool :=
  isPrefixList suffix.data.reverse s.data.reverse

/-- JS `s.includes(sub)`. -/
def jsIncludes (s sub : String) : Bool :=
  hasSubstrList sub.data s.data

/-! ## Entry Discovery (`fetchDocsEntries`) -/

/-- One descriptor object of the GitHub directory-listing array.  The two
fields the loader reads; either may be absent (`none` models JS `undefined`). -/
structure GithubFileDesc where
  url : Option String
  download_url : Option String
deriving DecidableEq

/-- The ephemeral pair produced by discovery
(`{ selfUrl: entry.url, downloadUrl: entry.download_url }`). -/
structure DiscoveredEntry where
  selfUrl : Option String
  downloadUrl : Option String
deriving DecidableEq

/-- The filter predicate of `fetchDocsEntries`:
`entry.selfUrl && entry.downloadUrl && entry.downloadUrl.endsWith('.md')
&& !entry.downloadUrl.includes('README.md')`.
JS truthiness on strings: `undefined` and the empty string are falsy. -/
def keepEntry (e : DiscoveredEntry) : Bool :=
  match e.selfUrl, e.downloadUrl with
  | some su, some du =>
      !su.isEmpty && (!du.isEmpty && (jsEndsWith du ".md" && !jsIncludes du "README.md"))
  | _, _ => false

/-- The pure core of `fetchDocsEntries`: map the listing array to
`DiscoveredEntry` pairs, then filter. -/
def fetchDocsEntriesPure (descs : List GithubFileDesc) : List DiscoveredEntry :=
  (descs.map (fun d => ⟨d.url, d.download_url⟩)).filter keepEntry

/-- Shape of the directory-listing response as the loader distinguishes it:
a non-success HTTP response, a success whose JSON body is not an array
(for example the object with a message field saying Not Found), or an array. -/
inductive ListingResponse where
  | httpFailure
  | nonArrayBody
  | arrayBody (descs : List GithubFileDesc)
deriving DecidableEq

/-- Effect-level `fetchDocsEntries`: throws on a non-success response or a
non-array body, otherwise returns the filtered entries. -/
def fetchDocsEntriesM (repo dirPath : String) (r : ListingResponse) :
    Except String (List DiscoveredEntry) :=
  match r with
  | .httpFailure => .error ("Failed to fetch " ++ repo ++ dirPath ++ " from GitHub")
  | .nonArrayBody => .error "Failed to fetch docs from GitHub"
  | .arrayBody descs => .ok (fetchDocsEntriesPure descs)

/-! ## Link Rewriter (`transformMarkdownLinks`) -/

/-- JS `url.split('#')` destructured as `[path, fragment]`: the path is the
text before the first `#`; the fragment is the text between the first and the
second `#` (`none` when the URL has no `#` at all). -/
def jsSplitHead (u : List Char) : List Char × Option (List Char) :=
  (u.takeWhile (fun c => c != '#'),
   match u.dropWhile (fun c => c != '#') with
   | [] => none
   | _ :: r => some (r.takeWhile (fun c => c != '#')))

/-- The two sequential strips of the source: first remove a leading `./` if
present, then remove a leading `../` if the result starts with one. -/
def cleanRelPath (p : List Char) : List Char :=
  let p1 := if p.take 2 = ['.', '/'] then p.drop 2 else p
  if p1.take 3 = ['.', '.', '/'] then p1.drop 3 else p1

/-- The guard `url.startsWith('./') || url.startsWith('../')`. -/
def isRelativeUrl (u : List Char) : Bool :=
  u.take 2 = ['.', '/'] || u.take 3 = ['.', '.', '/']

/-- The rebuilt URL of the source: `/docs/` + cleaned path + `#` + fragment,
the fragment kept only when it is truthy (defined and nonempty). -/
def rewriteUrl (u : List Char) : List Char :=
  let ps := jsSplitHead u
  ("/docs/").data ++ cleanRelPath ps.1 ++
    (match ps.2 with
     | some f => if f = [] then [] else '#' :: f
     | none => [])

/-- The replacement the regex callback produces for one match `[t](u)`. -/
def replaceMatch (t u : List Char) : List Char :=
  if isRelativeUrl u then
    '[' :: (t ++ ']' :: '(' :: (rewriteUrl u ++ [')']))
  else
    '[' :: (t ++ ']' :: '(' :: (u ++ [')']))

/-- Anchored match of the regex at the head of the
input: a literal open bracket, one or more non-close-bracket characters, a
close bracket, an open parenthesis, one or more non-close-parenthesis
characters, a close parenthesis.  Returns the link text, the URL and the
remainder after the match.  Greedy character classes that exclude their own
closing delimiter make this the unique possible match, so no backtracking
arises. -/
def tryMatch (l : List Char) : Option (List Char × List Char × List Char) :=
  match l with
  | [] => none
  | c :: rest =>
    if c = '[' then
      match rest.takeWhile (fun x => x != ']'), rest.dropWhile (fun x => x != ']') with
      | [], _ => none
      | _, [] => none
      | t, _ :: r1 =>
        match r1 with
        | [] => none
        | p :: r2 =>
          if p = '(' then
            match r2.takeWhile (fun x => x != ')'), r2.dropWhile (fun x => x != ')') with
            | [], _ => none
            | _, [] => none
            | u, _ :: r3 => some (t, u, r3)
          else none
    else none

/-- Fuel-indexed left-to-right scan of `String.prototype.replace` with a
global regex: at each position, replace the anchored match and continue after
it, otherwise copy one character and continue.  The fuel only needs to bound
the input length. -/
def scanGo : Nat → List Char → List Char
  | _, [] => []
  | 0, l => l
  | n + 1, c :: rest =>
    match tryMatch (c :: rest) with
    | some (t, u, rem) => replaceMatch t u ++ scanGo n rem
    | none => c :: scanGo n rest

/-- The full replace pass over a character list. -/
def transformList (l : List Char) : List Char :=
  scanGo l.length l

/-- The source's `transformMarkdownLinks`, lifted to `String`. -/
def transformMarkdownLinks (markdownContent : String) : String :=
  String.mk (transformList markdownContent.data)

/-! ## DocumentRecord, Entry Fetcher (`parseEntry`) and the store -/

/-- The nested `_links` object of the schema. -/
structure DocLinks where
  self : String
  git : String
  html : String
deriving DecidableEq

/-- The persisted record shape (`docsSchema`).  `size` is `z.number()`; the
loader never computes with it, so an integer model suffices. -/
structure DocRecord where
  name : String
  path : String
  sha : String
  size : Int
  url : String
  html_url : String
  git_url : String
  download_url : String
  type : String
  content : String
  encoding : String
  _links : DocLinks
deriving DecidableEq

/-- External collaborators of one run: the platform URL parser (`new URL`,
returning the serialized href or failing), the two fetches (outer `none` is a
non-success response; for metadata, inner `none` is a falsy JSON body), and
Astro's `parseData` validator (`none` models a thrown validation error). -/
structure Env where
  parseURL : String → Option String
  fetchMeta : String → Option (Option DocRecord)
  fetchText : String → Option String
  parseData : String → DocRecord → Option DocRecord

/-- The candidate record: metadata spread, `content` overwritten with the
rewritten text. -/
def mkCandidate (metadata : DocRecord) (text : String) : DocRecord :=
  { metadata with content := transformMarkdownLinks text }

/-- The source's `parseEntry`.  `new URL` on an absent field throws, hence the
`Option.bind`; a parse failure of either URL is caught and yields `ok none`.
Non-success or falsy fetch results and validation failures throw
(`Except.error`). -/
def parseEntry (env : Env) (e : DiscoveredEntry) : Except String (Option DocRecord) :=
  match e.selfUrl.bind env.parseURL, e.downloadUrl.bind env.parseURL with
  | some selfUrl, some downloadUrl =>
    match env.fetchMeta selfUrl with
    | none => .error ("Failed to fetch " ++ selfUrl)
    | some none => .error ("Failed to fetch " ++ selfUrl)
    | some (some metadata) =>
      match env.fetchText downloadUrl with
      | none => .error ("Failed to fetch " ++ downloadUrl)
      | some text =>
        if text = "" then .error ("Failed to fetch " ++ downloadUrl)
        else
          match env.parseData metadata.url (mkCandidate metadata text) with
          | none => .error "Failed to parse data"
          | some data => .ok (some data)
  | _, _ => .ok none

/-- The content store: an association list with at most one binding per key
once maintained through `storeSet`. -/
abbrev Store := List (String × DocRecord)

/-- Keyed upsert (`store.set`): overwrite any record at the key. -/
def storeSet (s : Store) (k : String) (v : DocRecord) : Store :=
  s.filter (fun p => p.1 != k) ++ [(k, v)]

/-- Number of stored records at a key. -/
def countKey (s : Store) (k : String) : Nat :=
  (s.filter (fun p => p.1 == k)).length

/-- The record stored at a key, if any. -/
def lookupStore (s : Store) (k : String) : Option DocRecord :=
  ((s.filter (fun p => p.1 == k)).head?).map (fun p => p.2)

/-- The per-entry loop of `load`: parse each entry; a `null` result writes
nothing; a record is stored under `data.url`; a thrown error aborts the rest
of the run.  This is the sequential linearization of the `Promise.all` fan-out. -/
def loadEntries (env : Env) : List DiscoveredEntry → Store → Store × Option String
  | [], s => (s, none)
  | e :: rest, s =>
    match parseEntry env e with
    | .error msg => (s, some msg)
    | .ok none => loadEntries env rest s
    | .ok (some data) => loadEntries env rest (storeSet s data.url data)

/-- One whole run: discovery, then the per-entry loop.  The pair carries the
final store and the fatal error, if one was thrown. -/
def loaderRun (repo dirPath : String) (env : Env) (r : ListingResponse) (s : Store) :
    Store × Option String :=
  match fetchDocsEntriesM repo dirPath r with
  | .error msg => (s, some msg)
  | .ok entries => loadEntries env entries s

/-! ## Spec-side definitions and witness data -/

/-- Scope predicate of C5, computed by the same scan as the rewriter: every
inline link the regex finds has a URL that does not start with `./` or `../`. -/
def linksAllAbsoluteGo : Nat → List Char → Bool
  | _, [] => true
  | 0, _ => true
  | n + 1, c :: rest =>
    match tryMatch (c :: rest) with
    | some (_, u, rem) => !(isRelativeUrl u) && linksAllAbsoluteGo n rem
    | none => linksAllAbsoluteGo n rest

/-- String-level form of the C5 scope predicate. -/
def linksAllAbsolute (s : String) : Bool :=
  linksAllAbsoluteGo s.data.length s.data

/-- Claim C1's filter condition read literally: both URL fields are present
(the field exists, whatever string it holds), the download URL ends in `.md`
and does not contain `README.md`. -/
def specKeepClaimC1 (e : DiscoveredEntry) : Bool :=
  e.selfUrl.isSome && e.downloadUrl.isSome &&
    (match e.downloadUrl with
     | some du => jsEndsWith du ".md" && !jsIncludes du "README.md"
     | none => false)

/-- Amended C1 filter condition: both URL fields are present with a nonempty
string (JS truthiness), the download URL ends in `.md` and does not contain
`README.md`. -/
def specKeepAmendedC1 (e : DiscoveredEntry) : Bool :=
  match e.selfUrl, e.downloadUrl with
  | some su, some du =>
      decide (su ≠ "") &&
        (decide (du ≠ "") && (jsEndsWith du ".md" && !jsIncludes du "README.md"))
  | _, _ => false

/-- Claim C3's URL rewrite read literally: split on the first `#` with the
fragment being everything after it; strip a leading `./` if present and
OTHERWISE strip a leading `../`; append `#` plus the fragment whenever a `#`
was present. -/
def claimC3UrlRewrite (u : List Char) : List Char :=
  let path := u.takeWhile (fun c => c != '#')
  let rest := u.dropWhile (fun c => c != '#')
  let p1 :=
    if path.take 2 = ['.', '/'] then path.drop 2
    else if path.take 3 = ['.', '.', '/'] then path.drop 3
    else path
  ("/docs/").data ++ p1 ++ (match rest with | [] => [] | _ :: f => '#' :: f)

/-- Amended C3 URL rewrite: the path is the part before the first `#` and the
fragment is the part between the first and second `#`; a leading `./` is
stripped if present and then a leading `../` is also stripped if the result
starts with one (both strips can apply); the rebuilt URL is `/docs/` plus the
cleaned path, with `#` plus the fragment appended only when the fragment is
nonempty. -/
def amendedC3UrlRewrite (u : List Char) : List Char :=
  let path := u.takeWhile (fun c => c != '#')
  let frag := ((u.dropWhile (fun c => c != '#')).drop 1).takeWhile (fun c => c != '#')
  let p1 := if path.take 2 = ['.', '/'] then path.drop 2 else path
  let p2 := if p1.take 3 = ['.', '.', '/'] then p1.drop 3 else p1
  ("/docs/").data ++ p2 ++ (if frag = [] then [] else '#' :: frag)

/-- Concrete `_links` object used by witnesses. -/
def sampleLinks : DocLinks :=
  ⟨"self-link", "git-link", "html-link"⟩

/-- Concrete metadata record used by witnesses. -/
def sampleMeta : DocRecord :=
  ⟨"intro.md", "docs/intro.md", "abc123", 42,
   "https://api.github.com/repos/ollama/ollama/contents/docs/intro.md",
   "hu", "gu", "du", "file", "original", "base64", sampleLinks⟩

/-- Happy-path environment used by witnesses: URL parsing succeeds verbatim,
both fetches succeed, and validation passes records through unchanged. -/
def sampleEnv : Env :=
  { parseURL := fun s => some s,
    fetchMeta := fun _ => some (some sampleMeta),
    fetchText := fun _ => some "[a](./b.md)",
    parseData := fun _ d => some d }

/-- Candidate record the happy-path environment produces for every entry. -/
def sampleDoc : DocRecord :=
  mkCandidate sampleMeta "[a](./b.md)"

/-- Environment whose URL parser rejects every string, used by witnesses. -/
def badUrlEnv : Env :=
  { parseURL := fun _ => none,
    fetchMeta := fun _ => none,
    fetchText := fun _ => none,
    parseData := fun _ _ => none }

/-! ## Lemmas about the anchored match and the scan -/

theorem dropWhile_head_false {p : Char → Bool} :
    ∀ {l : List Char} {c : Char} {r : List Char}, l.dropWhile p = c :: r → p c = false := by
  intro l
  induction l with
  | nil => intro c r h; simp at h
  | cons a rest ih =>
    intro c r h
    rw [List.dropWhile_cons] at h
    cases hpa : p a with
    | true => rw [if_pos hpa] at h; exact ih h
    | false =>
      rw [if_neg (by simp [hpa])] at h
      obtain ⟨rfl, rfl⟩ := List.cons.injEq .. |>.mp h |>.imp id id
      exact hpa

theorem takeWhile_append_stop {p : Char → Bool} {c : Char} (hc : p c = false) :
    ∀ {t : List Char} {r : List Char}, (∀ x ∈ t, p x = true) →
      (t ++ c :: r).takeWhile p = t := by
  intro t
  induction t with
  | nil => intro r _; simp [List.takeWhile_cons, hc]
  | cons a ts ih =>
    intro r h
    have ha : p a = true := h a (by simp)
    simp only [List.cons_append, List.takeWhile_cons, ha, if_true]
    rw [ih (fun x hx => h x (by simp [hx]))]

theorem dropWhile_append_stop {p : Char → Bool} {c : Char} (hc : p c = false) :
    ∀ {t : List Char} {r : List Char}, (∀ x ∈ t, p x = true) →
      (t ++ c :: r).dropWhile p = c :: r := by
  intro t
  induction t with
  | nil => intro r _; simp [List.dropWhile_cons, hc]
  | cons a ts ih =>
    intro r h
    have ha : p a = true := h a (by simp)
    simp only [List.cons_append, List.dropWhile_cons, ha, if_true]
    exact ih (fun x hx => h x (by simp [hx]))

theorem tryMatch_eq_some {l t u r : List Char} (h : tryMatch l = some (t, u, r)) :
    l = '[' :: (t ++ ']' :: '(' :: (u ++ ')' :: r)) ∧ t ≠ [] ∧ u ≠ [] ∧
      (∀ c ∈ t, (c != ']') = true) ∧ (∀ c ∈ u, (c != ')') = true) := by
  rcases l with _ | ⟨c, rest⟩
  · simp [tryMatch] at h
  by_cases hc : c = '['
  case neg => simp [tryMatch, hc] at h
  subst hc
  rcases htw : rest.takeWhile (fun x => x != ']') with _ | ⟨t0, ts⟩
  · simp [tryMatch, htw] at h
  rcases hdw : rest.dropWhile (fun x => x != ']') with _ | ⟨d1, r1⟩
  · simp [tryMatch, htw, hdw] at h
  have hd1 : d1 = ']' := by
    have := dropWhile_head_false hdw; simpa using this
  subst hd1
  rcases r1 with _ | ⟨p, r2⟩
  · simp [tryMatch, htw, hdw] at h
  by_cases hp : p = '('
  case neg => simp [tryMatch, htw, hdw, hp] at h
  subst hp
  rcases hu : r2.takeWhile (fun x => x != ')') with _ | ⟨u0, us⟩
  · simp [tryMatch, htw, hdw, hu] at h
  rcases hdu : r2.dropWhile (fun x => x != ')') with _ | ⟨d2, r3⟩
  · simp [tryMatch, htw, hdw, hu, hdu] at h
  have hd2 : d2 = ')' := by
    have := dropWhile_head_false hdu; simpa using this
  subst hd2
  simp only [tryMatch, if_pos rfl, htw, hdw, hu, hdu] at h
  obtain ⟨rfl, rfl, rfl⟩ : t0 :: ts = t ∧ u0 :: us = u ∧ r3 = r := by
    simpa using h
  have hrest : rest = (t0 :: ts) ++ ']' :: '(' :: r2 := by
    conv_lhs => rw [← List.takeWhile_append_dropWhile (fun x => x != ']') rest]
    rw [htw, hdw]
  have hr2 : r2 = (u0 :: us) ++ ')' :: r3 := by
    conv_lhs => rw [← List.takeWhile_append_dropWhile (fun x => x != ')') r2]
    rw [hu, hdu]
  refine ⟨?_, by simp, by simp, ?_, ?_⟩
  · rw [hrest, hr2]
  · intro x hx
    have hx' : x ∈ rest.takeWhile (fun x => x != ']') := by rw [htw]; exact hx
    exact List.mem_takeWhile_imp (p := fun x => x != ']') hx'
  · intro x hx
    have hx' : x ∈ r2.takeWhile (fun x => x != ')') := by rw [hu]; exact hx
    exact List.mem_takeWhile_imp (p := fun x => x != ')') hx'

theorem tryMatch_complete {t u r : List Char} (ht : t ≠ []) (hu : u ≠ [])
    (htm : ∀ c ∈ t, (c != ']') = true) (hum : ∀ c ∈ u, (c != ')') = true) :
    tryMatch ('[' :: (t ++ ']' :: '(' :: (u ++ ')' :: r))) = some (t, u, r) := by
  have htw : (t ++ ']' :: '(' :: (u ++ ')' :: r)).takeWhile (fun x => x != ']') = t :=
    takeWhile_append_stop (c := ']') (r := '(' :: (u ++ ')' :: r)) (by simp) htm
  have hdw : (t ++ ']' :: '(' :: (u ++ ')' :: r)).dropWhile (fun x => x != ']') =
      ']' :: '(' :: (u ++ ')' :: r) :=
    dropWhile_append_stop (c := ']') (r := '(' :: (u ++ ')' :: r)) (by simp) htm
  have huw : (u ++ ')' :: r).takeWhile (fun x => x != ')') = u :=
    takeWhile_append_stop (c := ')') (r := r) (by simp) hum
  have hdu : (u ++ ')' :: r).dropWhile (fun x => x != ')') = ')' :: r :=
    dropWhile_append_stop (c := ')') (r := r) (by simp) hum
  rcases t with _ | ⟨t0, ts⟩
  · exact absurd rfl ht
  rcases u with _ | ⟨u0, us⟩
  · exact absurd rfl hu
  simp only [List.cons_append] at htw hdw huw hdu
  simp [tryMatch, htw, hdw, huw, hdu]

theorem tryMatch_length {l t u r : List Char} (h : tryMatch l = some (t, u, r)) :
    r.length + 6 ≤ l.length := by
  obtain ⟨hl, ht, hu, -, -⟩ := tryMatch_eq_some h
  have ht' : 0 < t.length := List.length_pos.mpr ht
  have hu' : 0 < u.length := List.length_pos.mpr hu
  subst hl
  simp [List.length_append]
  omega

theorem scanGo_eq_transformList : ∀ (n : Nat) (l : List Char), l.length ≤ n →
    scanGo n l = transformList l := by
  intro n
  induction n using Nat.strong_induction_on with
  | _ n ih =>
    intro l hl
    match n, l with
    | n, [] => simp [scanGo, transformList]
    | 0, c :: rest => simp at hl
    | Nat.succ k, c :: rest =>
      have hrest : rest.length ≤ k := by simpa using hl
      rw [transformList]
      simp only [List.length_cons, scanGo]
      cases htm : tryMatch (c :: rest) with
      | none =>
        have h1 : scanGo k rest = transformList rest := ih k (Nat.lt_succ_self k) rest hrest
        have h2 : scanGo rest.length rest = transformList rest :=
          ih rest.length (Nat.lt_succ_of_le hrest) rest le_rfl
        simp [h1, h2]
      | some v =>
        obtain ⟨t, u, rem⟩ := v
        have hlen := tryMatch_length htm
        simp only [List.length_cons] at hlen
        have h1 : scanGo k rem = transformList rem :=
          ih k (Nat.lt_succ_self k) rem (by omega)
        have h2 : scanGo rest.length rem = transformList rem :=
          ih rest.length (Nat.lt_succ_of_le hrest) rem (by omega)
        simp [h1, h2]

theorem transformList_single {t u : List Char} (ht : t ≠ []) (hu : u ≠ [])
    (htm : ∀ c ∈ t, (c != ']') = true) (hum : ∀ c ∈ u, (c != ')') = true) :
    transformList ('[' :: (t ++ ']' :: '(' :: (u ++ [')']))) = replaceMatch t u := by
  have hc := tryMatch_complete (r := []) ht hu htm hum
  rw [transformList]
  simp only [List.length_cons, scanGo, hc]
  simp [scanGo]

theorem transformList_bang (d : List Char) :
    transformList ('!' :: d) = '!' :: transformList d := by
  have h : tryMatch ('!' :: d) = none := by simp [tryMatch]
  rw [transformList]
  simp only [List.length_cons, scanGo, h]
  rw [scanGo_eq_transformList d.length d le_rfl]

theorem scanGo_id : ∀ (n : Nat) (l : List Char), l.length ≤ n →
    linksAllAbsoluteGo n l = true → scanGo n l = l := by
  intro n
  induction n using Nat.strong_induction_on with
  | _ n ih =>
    intro l hl hab
    match n, l with
    | n, [] => simp [scanGo]
    | 0, c :: rest => simp at hl
    | Nat.succ k, c :: rest =>
      have hrest : rest.length ≤ k := by simpa using hl
      cases htm : tryMatch (c :: rest) with
      | none =>
        have hab' : linksAllAbsoluteGo k rest = true := by
          simpa only [linksAllAbsoluteGo, htm] using hab
        simp [scanGo, htm, ih k (Nat.lt_succ_self k) rest hrest hab']
      | some v =>
        obtain ⟨t, u, rem⟩ := v
        obtain ⟨hdecomp, ht, hu, -, -⟩ := tryMatch_eq_some htm
        have hlen := tryMatch_length htm
        simp only [List.length_cons] at hlen
        have hab' : isRelativeUrl u = false ∧ linksAllAbsoluteGo k rem = true := by
          simpa only [linksAllAbsoluteGo, htm, Bool.and_eq_true, Bool.not_eq_true']
            using hab
        have hid : scanGo k rem = rem :=
          ih k (Nat.lt_succ_self k) rem (by omega) hab'.2
        simp only [scanGo, htm, hid, replaceMatch, hab'.1, if_false, Bool.false_eq_true]
        rw [hdecomp]
        simp

theorem isEmpty_eq_decide (s : String) : s.isEmpty = decide (s = "") := by
  cases hb : s.isEmpty with
  | true =>
    rw [decide_eq_true ((String.isEmpty_iff s).mp hb)]
  | false =>
    have h : ¬(s = "") := by
      intro hc
      have htr := (String.isEmpty_iff s).mpr hc
      rw [hb] at htr
      exact Bool.false_ne_true htr
    rw [decide_eq_false h]

theorem keepEntry_eq_spec (e : DiscoveredEntry) : keepEntry e = specKeepAmendedC1 e := by
  rcases e with ⟨su?, du?⟩
  cases su? with
  | none => cases du? <;> rfl
  | some su =>
    cases du? with
    | none => rfl
    | some du =>
      simp only [keepEntry, specKeepAmendedC1, isEmpty_eq_decide, decide_not]

theorem rewriteUrl_eq_amended (u : List Char) :
    rewriteUrl u = amendedC3UrlRewrite u := by
  unfold rewriteUrl amendedC3UrlRewrite jsSplitHead cleanRelPath
  cases h : u.dropWhile (fun c => c != '#') with
  | nil => simp [h]
  | cons d r => simp [h]

theorem countKey_storeSet_self (s : Store) (k : String) (v : DocRecord) :
    countKey (storeSet s k v) k = 1 := by
  unfold countKey storeSet
  rw [List.filter_append, List.filter_filter]
  have hfalse : ∀ p : String × DocRecord, ((p.1 == k) && (p.1 != k)) = false := by
    intro p; by_cases h : p.1 = k <;> simp [h]
  rw [List.filter_congr (fun x _ => hfalse x)]
  simp

theorem lookupStore_storeSet_self (s : Store) (k : String) (v : DocRecord) :
    lookupStore (storeSet s k v) k = some v := by
  unfold lookupStore storeSet
  rw [List.filter_append, List.filter_filter]
  have hfalse : ∀ p : String × DocRecord, ((p.1 == k) && (p.1 != k)) = false := by
    intro p; by_cases h : p.1 = k <;> simp [h]
  rw [List.filter_congr (fun x _ => hfalse x)]
  simp

/-! ## Claims -/

/-- C1 (counterexample): a descriptor whose metadata URL field is present but
holds the empty string meets every condition of the claim as stated (both
fields present, download URL ends in `.md`, no `README.md` substring), yet the
filter drops it, because JS truthiness also rejects empty strings. -/
theorem claimC1_counterexample :
    specKeepClaimC1 ⟨some "", some "x.md"⟩ = true ∧
    fetchDocsEntriesPure [⟨some "", some "x.md"⟩] = [] := by
  decide

/-- C1 (amended): a descriptor survives the Entry Discovery filter iff its
metadata URL field and its download URL field are both present with a nonempty
string, the download URL ends in `.md`, and the download URL does not contain
`README.md`; surviving entries keep the listing order (the output is the
order-preserving filter of the mapped listing). -/
theorem claimC1_amended (descs : List GithubFileDesc) :
    fetchDocsEntriesPure descs =
      (descs.map (fun d => ⟨d.url, d.download_url⟩)).filter specKeepAmendedC1 ∧
    (fetchDocsEntriesPure descs).Sublist
      (descs.map (fun d => ⟨d.url, d.download_url⟩)) :=
  ⟨List.filter_congr (fun e _ => keepEntry_eq_spec e), List.filter_sublist _⟩

/-- C2: the Link Rewriter maps `[Intro](./intro.md#setup)` to
`[Intro](/docs/intro.md#setup)`, `[Back](../index.md)` to
`[Back](/docs/index.md)`, and leaves `[Ext](https://example.com/x)`
unchanged. -/
theorem claimC2 :
    transformMarkdownLinks "[Intro](./intro.md#setup)" = "[Intro](/docs/intro.md#setup)" ∧
    transformMarkdownLinks "[Back](../index.md)" = "[Back](/docs/index.md)" ∧
    transformMarkdownLinks "[Ext](https://example.com/x)" = "[Ext](https://example.com/x)" := by
  decide

/-- C3 (counterexample): on the link `[A](./../x.md#a#b)` the code produces
`[A](/docs/x.md#a)` — the fragment is only the part between the first and
second `#` (JS `split('#')[1]`), not everything after the first `#`, and after
stripping `./` the code additionally strips `../` — whereas the claim as
stated prescribes the URL `/docs/../x.md#a#b`. -/
theorem claimC3_counterexample :
    claimC3UrlRewrite ("./../x.md#a#b").data = ("/docs/../x.md#a#b").data ∧
    transformMarkdownLinks "[A](./../x.md#a#b)" = "[A](/docs/x.md#a)" ∧
    transformMarkdownLinks "[A](./../x.md#a#b)" ≠ "[A](/docs/../x.md#a#b)" := by
  decide

/-- C3 (amended): for every inline link whose URL starts with `./` or `../`,
the rewriter takes the path as the part before the first `#` and the fragment
as the part between the first and second `#`, strips a single leading `./`
from the path if present and then also strips a single leading `../` if the
result starts with one, and rebuilds the URL as `/docs/<cleaned-path>`
followed by `#<fragment>` only when the fragment is nonempty. -/
theorem claimC3_amended (t u : List Char) (ht : t ≠ [])
    (htm : ∀ c ∈ t, (c != ']') = true) (hum : ∀ c ∈ u, (c != ')') = true)
    (hrel : isRelativeUrl u = true) :
    transformList ('[' :: (t ++ ']' :: '(' :: (u ++ [')']))) =
      '[' :: (t ++ ']' :: '(' :: (amendedC3UrlRewrite u ++ [')'])) := by
  have hu : u ≠ [] := by
    rintro rfl
    simp [isRelativeUrl] at hrel
  rw [transformList_single ht hu htm hum]
  simp [replaceMatch, hrel, rewriteUrl_eq_amended]

/-- Witness for C3 (amended) at the link `[A](./../x.md#a#b)`. -/
theorem claimC3_amended_witness :
    (['A'] : List Char) ≠ [] ∧
    (∀ c ∈ (['A'] : List Char), (c != ']') = true) ∧
    (∀ c ∈ ("./../x.md#a#b").data, (c != ')') = true) ∧
    isRelativeUrl ("./../x.md#a#b").data = true ∧
    transformList ('[' :: (['A'] ++ ']' :: '(' :: (("./../x.md#a#b").data ++ [')']))) =
      '[' :: (['A'] ++ ']' :: '(' :: (amendedC3UrlRewrite ("./../x.md#a#b").data ++ [')'])) :=
  ⟨by decide, by decide, by decide, by decide,
   claimC3_amended ['A'] ("./../x.md#a#b").data (by decide) (by decide) (by decide) (by decide)⟩

/-- C4 (counterexample): the image construct `![A](./x.md)` is NOT left
unmodified — the regex has no guard against a preceding `!`, so the rewriter
transforms it into `![A](/docs/x.md)`. -/
theorem claimC4_counterexample :
    transformMarkdownLinks "![A](./x.md)" ≠ "![A](./x.md)" ∧
    transformMarkdownLinks "![A](./x.md)" = "![A](/docs/x.md)" := by
  decide

/-- C4 (amended): the rewriter does not exempt image constructs; the leading
`!` passes through as plain text and the embedded `[text](url)` part is
rewritten exactly as an ordinary inline link, so `![A](./x.md)` becomes
`![A](/docs/x.md)`. -/
theorem claimC4_amended :
    (∀ s : String, transformMarkdownLinks ("!" ++ s) = "!" ++ transformMarkdownLinks s) ∧
    transformMarkdownLinks "![A](./x.md)" = "![A](/docs/x.md)" := by
  constructor
  · intro s
    apply String.ext
    have hd : ("!" ++ s).data = '!' :: s.data := by
      rw [String.data_append]; rfl
    have hd2 : ("!" ++ transformMarkdownLinks s).data = '!' :: transformList s.data := by
      rw [String.data_append]; rfl
    show transformList ("!" ++ s).data = ("!" ++ transformMarkdownLinks s).data
    rw [hd, hd2, transformList_bang]
  · decide

/-- C5: on input strings all of whose inline links have URLs not starting with
`./` or `../`, applying the Link Rewriter twice equals applying it once; and
for a fixed input the output is the same on every application. -/
theorem claimC5 :
    (∀ s : String, linksAllAbsolute s = true →
      transformMarkdownLinks (transformMarkdownLinks s) = transformMarkdownLinks s) ∧
    (∀ s : String, transformMarkdownLinks s = transformMarkdownLinks s) := by
  constructor
  · intro s hs
    have hid : transformList s.data = s.data := by
      unfold linksAllAbsolute at hs
      exact scanGo_id s.data.length s.data le_rfl hs
    have h1 : transformMarkdownLinks s = s := by
      apply String.ext
      show transformList s.data = s.data
      exact hid
    rw [h1]
    exact h1
  · intro s
    rfl

/-- Witness for C5 at an input containing only an absolute link. -/
theorem claimC5_witness :
    linksAllAbsolute "see [Ext](https://example.com/x) here" = true ∧
    transformMarkdownLinks (transformMarkdownLinks "see [Ext](https://example.com/x) here") =
      transformMarkdownLinks "see [Ext](https://example.com/x) here" :=
  ⟨by decide, claimC5.1 "see [Ext](https://example.com/x) here" (by decide)⟩

/-- C6: an entry whose metadata URL or download URL fails to parse yields no
record (`ok none`) without raising an error, writes nothing to the store, and
the rest of the run is exactly the run without that entry. -/
theorem claimC6 (env : Env) (e : DiscoveredEntry) (xs ys : List DiscoveredEntry) (s : Store)
    (h : e.selfUrl.bind env.parseURL = none ∨ e.downloadUrl.bind env.parseURL = none) :
    parseEntry env e = .ok none ∧
    loadEntries env (xs ++ e :: ys) s = loadEntries env (xs ++ ys) s := by
  have hpe : parseEntry env e = .ok none := by
    rcases h with h | h
    · cases hd : e.downloadUrl.bind env.parseURL <;> simp [parseEntry, h, hd]
    · cases hs' : e.selfUrl.bind env.parseURL <;> simp [parseEntry, h, hs']
  refine ⟨hpe, ?_⟩
  induction xs generalizing s with
  | nil => simp [loadEntries, hpe]
  | cons x xs ih =>
    simp only [List.cons_append, loadEntries]
    cases parseEntry env x with
    | error msg => rfl
    | ok o =>
      cases o with
      | none => exact ih s
      | some d => exact ih (storeSet s d.url d)

/-- Witness for C6 in an environment whose URL parser rejects everything. -/
theorem claimC6_witness :
    ((DiscoveredEntry.mk (some "u") (some "v")).selfUrl.bind badUrlEnv.parseURL = none ∨
      (DiscoveredEntry.mk (some "u") (some "v")).downloadUrl.bind badUrlEnv.parseURL = none) ∧
    parseEntry badUrlEnv ⟨some "u", some "v"⟩ = .ok none ∧
    loadEntries badUrlEnv ([] ++ ⟨some "u", some "v"⟩ :: []) [] =
      loadEntries badUrlEnv ([] ++ []) [] :=
  ⟨Or.inl rfl,
   (claimC6 badUrlEnv ⟨some "u", some "v"⟩ [] [] [] (Or.inl rfl)).1,
   (claimC6 badUrlEnv ⟨some "u", some "v"⟩ [] [] [] (Or.inl rfl)).2⟩

/-- C7: when the directory-listing response is not a success or its body is
not a JSON array, the run throws a fatal error, the store is unchanged (zero
records written), and the result does not depend on the fetch environment at
all — no per-entry fetch begins. -/
theorem claimC7 (repo dirPath : String) (env : Env) (r : ListingResponse) (s : Store)
    (h : r = .httpFailure ∨ r = .nonArrayBody) :
    (loaderRun repo dirPath env r s).1 = s ∧
    (loaderRun repo dirPath env r s).2.isSome = true ∧
    ∀ env' : Env, loaderRun repo dirPath env r s = loaderRun repo dirPath env' r s := by
  rcases h with rfl | rfl <;> exact ⟨rfl, rfl, fun env' => rfl⟩

/-- Witness for C7 on the non-array body (the Not-Found error object). -/
theorem claimC7_witness :
    (ListingResponse.nonArrayBody = ListingResponse.httpFailure ∨
      ListingResponse.nonArrayBody = ListingResponse.nonArrayBody) ∧
    (loaderRun "ollama/ollama" "docs" badUrlEnv .nonArrayBody []).1 = [] ∧
    (loaderRun "ollama/ollama" "docs" badUrlEnv .nonArrayBody []).2.isSome = true :=
  ⟨Or.inr rfl,
   (claimC7 "ollama/ollama" "docs" badUrlEnv .nonArrayBody [] (Or.inr rfl)).1,
   (claimC7 "ollama/ollama" "docs" badUrlEnv .nonArrayBody [] (Or.inr rfl)).2.1⟩

/-- C8: records are stored under key `data.url`; two entries whose parsed
records share the same `url` leave exactly one stored record for that url,
the later one (last write wins). -/
theorem claimC8 (env : Env) (e1 e2 : DiscoveredEntry) (s : Store) (d1 d2 : DocRecord)
    (h1 : parseEntry env e1 = .ok (some d1)) (h2 : parseEntry env e2 = .ok (some d2))
    (hu : d2.url = d1.url) :
    loadEntries env [e1, e2] s = (storeSet (storeSet s d1.url d1) d2.url d2, none) ∧
    countKey (loadEntries env [e1, e2] s).1 d1.url = 1 ∧
    lookupStore (loadEntries env [e1, e2] s).1 d1.url = some d2 := by
  have hrun : loadEntries env [e1, e2] s =
      (storeSet (storeSet s d1.url d1) d2.url d2, none) := by
    simp [loadEntries, h1, h2]
  refine ⟨hrun, ?_, ?_⟩
  · rw [hrun, hu]
    exact countKey_storeSet_self _ _ _
  · rw [hrun, hu]
    exact lookupStore_storeSet_self _ _ _

/-- Witness for C8: two entries that resolve to the same record. -/
theorem claimC8_witness :
    parseEntry sampleEnv ⟨some "a", some "b"⟩ = .ok (some sampleDoc) ∧
    parseEntry sampleEnv ⟨some "c", some "d"⟩ = .ok (some sampleDoc) ∧
    sampleDoc.url = sampleDoc.url ∧
    loadEntries sampleEnv [⟨some "a", some "b"⟩, ⟨some "c", some "d"⟩] [] =
      (storeSet (storeSet [] sampleDoc.url sampleDoc) sampleDoc.url sampleDoc, none) :=
  ⟨rfl, rfl, rfl,
   (claimC8 sampleEnv ⟨some "a", some "b"⟩ ⟨some "c", some "d"⟩ [] sampleDoc sampleDoc
     rfl rfl rfl).1⟩

/-- C9: on the happy path the Fetcher's candidate record is the metadata with
only `content` overwritten by the Link Rewriter applied to the fetched text;
every other field equals the metadata field verbatim. -/
theorem claimC9 (env : Env) (e : DiscoveredEntry) (su du : String) (m : DocRecord)
    (text : String)
    (hsu : e.selfUrl.bind env.parseURL = some su)
    (hdu : e.downloadUrl.bind env.parseURL = some du)
    (hm : env.fetchMeta su = some (some m))
    (ht : env.fetchText du = some text)
    (hne : text ≠ "")
    (hp : env.parseData m.url (mkCandidate m text) = some (mkCandidate m text)) :
    parseEntry env e = .ok (some (mkCandidate m text)) ∧
    (mkCandidate m text).content = transformMarkdownLinks text ∧
    (mkCandidate m text).name = m.name ∧ (mkCandidate m text).path = m.path ∧
    (mkCandidate m text).sha = m.sha ∧ (mkCandidate m text).size = m.size ∧
    (mkCandidate m text).url = m.url ∧ (mkCandidate m text).html_url = m.html_url ∧
    (mkCandidate m text).git_url = m.git_url ∧
    (mkCandidate m text).download_url = m.download_url ∧
    (mkCandidate m text).type = m.type ∧ (mkCandidate m text).encoding = m.encoding ∧
    (mkCandidate m text)._links = m._links := by
  refine ⟨?_, rfl, rfl, rfl, rfl, rfl, rfl, rfl, rfl, rfl, rfl, rfl, rfl⟩
  simp [parseEntry, hsu, hdu, hm, ht, hne, hp]

/-- Witness for C9 on the happy-path environment. -/
theorem claimC9_witness :
    (DiscoveredEntry.mk (some "a") (some "b")).selfUrl.bind sampleEnv.parseURL = some "a" ∧
    (DiscoveredEntry.mk (some "a") (some "b")).downloadUrl.bind sampleEnv.parseURL = some "b" ∧
    sampleEnv.fetchMeta "a" = some (some sampleMeta) ∧
    sampleEnv.fetchText "b" = some "[a](./b.md)" ∧
    ("[a](./b.md)" : String) ≠ "" ∧
    parseEntry sampleEnv ⟨some "a", some "b"⟩ =
      .ok (some (mkCandidate sampleMeta "[a](./b.md)")) :=
  ⟨rfl, rfl, rfl, rfl, by decide,
   (claimC9 sampleEnv ⟨some "a", some "b"⟩ "a" "b" sampleMeta "[a](./b.md)"
     rfl rfl rfl rfl (by decide) rfl).1⟩

/-- C10: for an inline link whose URL starts with `./` or `../` and ends in a
single trailing `#` (a `#` with an empty fragment), the rewriter drops the `#`
entirely: the rebuilt URL is `/docs/` plus the cleaned path with no `#`. -/
theorem claimC10 (t p : List Char) (ht : t ≠ [])
    (htm : ∀ c ∈ t, (c != ']') = true) (hum : ∀ c ∈ p, (c != ')') = true)
    (hrel : isRelativeUrl (p ++ ['#']) = true) (hp : '#' ∉ p) :
    transformList ('[' :: (t ++ ']' :: '(' :: ((p ++ ['#']) ++ [')']))) =
      '[' :: (t ++ ']' :: '(' :: ((("/docs/").data ++ cleanRelPath p) ++ [')'])) := by
  have hu : p ++ ['#'] ≠ [] := by simp
  have hum' : ∀ c ∈ p ++ ['#'], (c != ')') = true := by
    intro c hc
    rcases List.mem_append.mp hc with h | h
    · exact hum c h
    · simp only [List.mem_singleton] at h
      subst h
      decide
  have hpm : ∀ x ∈ p, (fun c => c != '#') x = true := by
    intro x hx
    simp only [bne_iff_ne, ne_eq]
    rintro rfl
    exact hp hx
  have h1 : (p ++ ['#']).takeWhile (fun c => c != '#') = p :=
    takeWhile_append_stop (c := '#') (r := []) (by simp) hpm
  have h2 : (p ++ ['#']).dropWhile (fun c => c != '#') = ['#'] :=
    dropWhile_append_stop (c := '#') (r := []) (by simp) hpm
  have hrw : rewriteUrl (p ++ ['#']) = ("/docs/").data ++ cleanRelPath p := by
    unfold rewriteUrl jsSplitHead
    simp [h1, h2]
  rw [transformList_single ht hu htm hum']
  simp [replaceMatch, hrel, hrw]

/-- Witness for C10 at the link `[A](./x.md#)`. -/
theorem claimC10_witness :
    (['A'] : List Char) ≠ [] ∧
    (∀ c ∈ (['A'] : List Char), (c != ']') = true) ∧
    (∀ c ∈ ("./x.md").data, (c != ')') = true) ∧
    isRelativeUrl (("./x.md").data ++ ['#']) = true ∧
    '#' ∉ ("./x.md").data ∧
    transformList ('[' :: (['A'] ++ ']' :: '(' :: ((("./x.md").data ++ ['#']) ++ [')']))) =
      '[' :: (['A'] ++ ']' :: '(' :: ((("/docs/").data ++ cleanRelPath ("./x.md").data) ++ [')'])) :=
  ⟨by decide, by decide, by decide, by decide, by decide,
   claimC10 ['A'] ("./x.md").data (by decide) (by decide) (by decide) (by decide) (by decide)⟩

end OllamaDocs
